import Mathlib

/-! Nim: optimal-play decision procedure (`nim.c`).

A shallow embedding of the functions of `nim.c` and proofs about them.

* `unsigned int` is a 32-bit machine word: a natural number below `2 ^ 32`;
  the left shift and the subtraction are taken modulo `2 ^ 32`.
* An array is a list; reading `arr[i]` at an index outside the list is a
  fault (`Fault.out_of_bounds`), as is returning a local variable that was
  never assigned (`Fault.uninitialised`).
* The scan of `find_msb` is a `while` loop: it is run with a budget of loop
  tests, and running out of budget is a fault of its own
  (`Fault.out_of_fuel`), never a result.
-/

namespace Nim

/-- The ways an execution can go wrong instead of returning a value. -/
inductive Fault where
  | out_of_bounds
  | uninitialised
  | out_of_fuel
  deriving DecidableEq, Repr

deriving instance DecidableEq for Except

/-- Width in bits of an `unsigned int`. -/
def UINT_WIDTH : Nat := 32

/-- The modulus `2 ^ 32` of `unsigned int` arithmetic. -/
def UINT_MOD : Nat := 2 ^ UINT_WIDTH

/-- Reading `arr[i]`: a fault outside the array. -/
def read (arr : List Nat) (i : Nat) : Except Fault Nat :=
  match arr[i]? with
  | some v => .ok v
  | none => .error Fault.out_of_bounds

/-- The C expression `(num & b) != 0`. -/
def is_bit_set (num b : Nat) : Bool :=
  (num &&& b) != 0

/-- The `while (curr_bit <= z && curr_bit != 0)` loop of `find_msb`. The state
is `curr_bit` and the local `msb`, which is `none` until it is first assigned.
The first argument is the budget of loop tests. The result is the state at
loop exit. -/
def find_msb_loop (z : Nat) : Nat → Nat → Option Nat → Except Fault (Nat × Option Nat)
  | 0, _, _ => .error Fault.out_of_fuel
  | fuel + 1, curr_bit, msb =>
    if curr_bit ≤ z && curr_bit != 0 then
      let msb1 := if (curr_bit &&& z) != 0 then some curr_bit else msb
      find_msb_loop z fuel ((curr_bit <<< 1) % UINT_MOD) msb1
    else
      .ok (curr_bit, msb)

/-- The function `find_msb`: `curr_bit` starts at 1, `msb` starts unassigned,
and the value of `msb` after the loop is returned. One loop test more than the
width of the word is budgeted. -/
def find_msb (z : Nat) : Except Fault Nat :=
  if z = 0 then .ok 0
  else
    match find_msb_loop z (UINT_WIDTH + 1) 1 none with
    | .error e => .error e
    | .ok (_, some msb) => .ok msb
    | .ok (_, none) => .error Fault.uninitialised

/-- One iteration of the `for` loop of `find_max` at index `i`; the state is
`(max, index_max)`. -/
def find_max_step (arr : List Nat) (st : Nat × Nat) (i : Nat) : Except Fault (Nat × Nat) :=
  match read arr i with
  | .error e => .error e
  | .ok v => if v > st.1 then .ok (v, i) else .ok st

/-- The function `find_max`: `max = arr[0]`, then `i` runs from 1 to
`size - 1`. -/
def find_max (size : Nat) (arr : List Nat) : Except Fault Nat :=
  match read arr 0 with
  | .error e => .error e
  | .ok max0 =>
    match (List.range' 1 (size - 1)).foldlM (find_max_step arr) (max0, 0) with
    | .error e => .error e
    | .ok st => .ok st.2

/-- One iteration of the first loop of `find_winning_move`:
`xor = xor ^ pile_size[i]`. -/
def xor_step (pile_size : List Nat) (xor : Nat) (i : Nat) : Except Fault Nat :=
  match read pile_size i with
  | .error e => .error e
  | .ok v => .ok (xor ^^^ v)

/-- The loop `while (!is_bit_set(pile_size[*move_pile], msb)) (*move_pile)++`.
The list argument is what is left of the array from index `move_pile` on: when
nothing is left the read is outside the array. -/
def scan_loop (msb : Nat) : List Nat → Nat → Except Fault Nat
  | [], _ => .error Fault.out_of_bounds
  | v :: rest, move_pile =>
    if is_bit_set v msb then .ok move_pile else scan_loop msb rest (move_pile + 1)

/-- The outputs `*move_pile` and `*move_count` of `find_winning_move`. -/
structure Move where
  move_pile : Nat
  move_count : Nat
  deriving DecidableEq, Repr

/-- The function `find_winning_move`. `ok none` is the return value `false`
(the outputs are not written); `ok (some m)` is the return value `true` with
the outputs `m`. -/
def find_winning_move (num_piles : Nat) (pile_size : List Nat) : Except Fault (Option Move) :=
  match (List.range num_piles).foldlM (xor_step pile_size) 0 with
  | .error e => .error e
  | .ok xor =>
    if xor = 0 then .ok none
    else
      match find_msb xor with
      | .error e => .error e
      | .ok msb =>
        match scan_loop msb pile_size 0 with
        | .error e => .error e
        | .ok move_pile =>
          match read pile_size move_pile with
          | .error e => .error e
          | .ok v => .ok (some ⟨move_pile, (v + UINT_MOD - (xor ^^^ v)) % UINT_MOD⟩)

/-! ## Vocabulary of the specification -/

/-- Every pile size is an `unsigned int`. -/
def AllUInt (piles : List Nat) : Prop := ∀ v ∈ piles, v < UINT_MOD

instance (piles : List Nat) : Decidable (AllUInt piles) := by
  unfold AllUInt; infer_instance

/-- The Nim-sum: the bitwise exclusive-or of all pile sizes. -/
def nim_sum (piles : List Nat) : Nat := piles.foldl (· ^^^ ·) 0

/-- The position after removing `c` stones from pile `i`. -/
def take_stones (piles : List Nat) (i c : Nat) : List Nat :=
  piles.set i (piles.getD i 0 - c)

/-- What the state `(max, index_max)` of `find_max` satisfies when the indices
below `s` have been looked at. -/
def MaxInv (arr : List Nat) (s : Nat) (st : Nat × Nat) : Prop :=
  st.2 < s ∧ arr.getD st.2 0 = st.1 ∧ (∀ j, j < s → arr.getD j 0 ≤ st.1) ∧
    (∀ j, j < st.2 → arr.getD j 0 < st.1)

/-- A winning move: a legal move (`i` is a pile, `c` is at least one stone and
at most the pile) that leaves the Nim-sum at zero. -/
def winning_move (piles : List Nat) (i c : Nat) : Prop :=
  i < piles.length ∧ 1 ≤ c ∧ c ≤ piles.getD i 0 ∧ nim_sum (take_stones piles i c) = 0

instance (piles : List Nat) (i c : Nat) : Decidable (winning_move piles i c) := by
  unfold winning_move; infer_instance

/-- The positions one legal move away in normal-play Nim: some pile `i` loses
`c + 1` of its stones, for `c + 1` from 1 to the size of the pile. -/
def moves (piles : List Nat) : List (List Nat) :=
  (List.range piles.length).flatMap fun i =>
    (List.range (piles.getD i 0)).map fun c => take_stones piles i (c + 1)

/-- Game value of normal-play Nim for positions of at most `fuel` stones: the
player to move wins when some move leads to a position that its mover loses;
with no stones there is no move and the player to move has lost. -/
def wins_within : Nat → List Nat → Bool
  | 0, _ => false
  | fuel + 1, piles => (moves piles).any fun q => !wins_within fuel q

/-- The player to move has a forced win: the recursion runs on the total
number of stones, which every move decreases. -/
def forced_win (piles : List Nat) : Bool := wins_within piles.sum piles

/-! ## The driver, the memory and the input -/

/-- The line `main` prints. -/
inductive Report where
  | game_over
  | win (take_count take_row : Nat)
  | lose (largest_pile : Nat)
  deriving DecidableEq, Repr

/-- The body of `main` after `read_game` has delivered `num_piles` and
`pile_size`: the choice of the line to print. -/
def main_decision (num_piles : Nat) (pile_size : List Nat) : Except Fault Report :=
  if num_piles = 0 then .ok Report.game_over
  else
    match find_winning_move num_piles pile_size with
    | .error e => .error e
    | .ok (some m) => .ok (Report.win m.move_count m.move_pile)
    | .ok none =>
      match find_max num_piles pile_size with
      | .error e => .error e
      | .ok largest_pile =>
        match read pile_size largest_pile with
        | .error e => .error e
        | .ok v => if v > 0 then .ok (Report.lose largest_pile) else .ok Report.game_over

/-- The memory the decision procedure works on, as `main` sets it up: the
pile array and the two cells `take_row` and `take_count` that the reference
arguments `move_pile` and `move_count` of `find_winning_move` point to. -/
structure Mem where
  pile_size : List Nat
  move_pile : Nat
  move_count : Nat
  deriving DecidableEq, Repr

/-- The scan loop of `find_winning_move` with its store: every iteration
executes `(*move_pile)++`. The list argument is what is left of the array from
index `*move_pile` on. -/
def scan_loop_mem (msb : Nat) : List Nat → Mem → Except Fault Mem
  | [], _ => .error Fault.out_of_bounds
  | v :: rest, mem =>
    if is_bit_set v msb then .ok mem
    else scan_loop_mem msb rest { mem with move_pile := mem.move_pile + 1 }

/-- The function `find_winning_move` with its stores: `*move_pile = 0`,
`(*move_pile)++` and `*move_count = ...`. The result is the return value and
the memory at the return. -/
def find_winning_move_mem (num_piles : Nat) (mem : Mem) : Except Fault (Bool × Mem) :=
  match (List.range num_piles).foldlM (xor_step mem.pile_size) 0 with
  | .error e => .error e
  | .ok xor =>
    if xor = 0 then .ok (false, mem)
    else
      match find_msb xor with
      | .error e => .error e
      | .ok msb =>
        match scan_loop_mem msb mem.pile_size { mem with move_pile := 0 } with
        | .error e => .error e
        | .ok mem1 =>
          match read mem1.pile_size mem1.move_pile with
          | .error e => .error e
          | .ok v =>
            .ok (true, { mem1 with move_count := (v + UINT_MOD - (xor ^^^ v)) % UINT_MOD })

/-- The function `find_max` on the memory: it assigns only its locals
`index_max`, `max` and `i`. The result is the return value and the memory at
the return. -/
def find_max_mem (size : Nat) (mem : Mem) : Except Fault (Nat × Mem) :=
  match find_max size mem.pile_size with
  | .error e => .error e
  | .ok index_max => .ok (index_max, mem)

/-- Storage duration of an object. -/
inductive Storage where
  | automatic
  | allocated
  deriving DecidableEq, Repr

/-- The first loop of `read_game`:
`while (i < *num_piles && fscanf(stdin, "%u", &pile_size[i]) == 1) i++`.
The list argument holds the values the successive reads deliver before the
first read that fails; a cell of the array is `none` until it is assigned. The
result is `i` and the array at loop exit. -/
def read_loop (num_piles : Nat) : List Nat → Nat → List (Option Nat) → Nat × List (Option Nat)
  | [], i, pile_size => (i, pile_size)
  | v :: rest, i, pile_size =>
    if i < num_piles then read_loop num_piles rest (i + 1) (pile_size.set i (some v))
    else (i, pile_size)

/-- The second loop of `read_game`: `while (i < *num_piles)` with the body
`pile_size[i] = 0; i++`. -/
def fill_loop (num_piles i : Nat) (pile_size : List (Option Nat)) : List (Option Nat) :=
  (List.range' i (num_piles - i)).foldl (fun arr j => arr.set j (some 0)) pile_size

/-- What `read_game` hands to its caller. -/
structure GameInput where
  num_piles : Nat
  storage : Storage
  pile_size : List (Option Nat)
  deriving DecidableEq, Repr

/-- The function `read_game` after the first `fscanf` has stored `num_piles`.
The array is the local `unsigned int pile_size[*num_piles]`, of automatic
storage duration and not initialised; `pile_size` of the result is its content
at the `return` statement. -/
def read_game (num_piles : Nat) (input : List Nat) : GameInput :=
  let st := read_loop num_piles input 0 (List.replicate num_piles none)
  { num_piles := num_piles
    storage := Storage.automatic
    pile_size := fill_loop num_piles st.1 st.2 }

/-- What the caller reads through the pointer `read_game` returned, once
`read_game` has returned: the lifetime of an object of automatic storage
duration has ended with the call, and nothing can be read through a pointer
to it. -/
def after_return (g : GameInput) : Option (List (Option Nat)) :=
  match g.storage with
  | Storage.automatic => none
  | Storage.allocated => some g.pile_size

/-- The values the statement `curr_bit = curr_bit << 1` of `find_msb` assigns
to `curr_bit`, in order, for the loop started at `curr_bit` with the given
budget of loop tests. -/
def find_msb_shifts (z : Nat) : Nat → Nat → List Nat
  | 0, _ => []
  | fuel + 1, curr_bit =>
    if curr_bit ≤ z && curr_bit != 0 then
      ((curr_bit <<< 1) % UINT_MOD) :: find_msb_shifts z fuel ((curr_bit <<< 1) % UINT_MOD)
    else
      []

/-! ## Bits -/

theorem is_bit_set_two_pow (num k : Nat) : is_bit_set num (2 ^ k) = num.testBit k := by
  unfold is_bit_set
  rw [Nat.and_two_pow]
  have hpos : 0 < 2 ^ k := Nat.two_pow_pos _
  cases h : num.testBit k
  · simp
  · simp only [Bool.toNat_true, Nat.one_mul]
    simp [Nat.ne_of_gt hpos]

theorem testBit_of_between {z k : Nat} (hlo : 2 ^ k ≤ z) (hhi : z < 2 ^ (k + 1)) :
    z.testBit k = true := by
  obtain ⟨i, hik, hi⟩ := Nat.ge_two_pow_implies_high_bit_true hlo
  rcases Nat.eq_or_lt_of_le hik with h | h
  · rw [h]; exact hi
  · exfalso
    have h1 : 2 ^ i ≤ z := Nat.testBit_implies_ge hi
    have h2 : 2 ^ (k + 1) ≤ 2 ^ i := Nat.pow_le_pow_right (by decide) h
    omega

theorem testBit_above_log2 {x j : Nat} (hj : x.log2 < j) : x.testBit j = false := by
  apply Nat.testBit_lt_two_pow
  have h1 : x < 2 ^ (x.log2 + 1) := Nat.lt_log2_self
  have h2 : 2 ^ (x.log2 + 1) ≤ 2 ^ j := Nat.pow_le_pow_right (by decide) hj
  omega

theorem testBit_log2 {x : Nat} (hx : x ≠ 0) : x.testBit x.log2 = true :=
  testBit_of_between (Nat.log2_self_le hx) Nat.lt_log2_self

theorem log2_lt_width {x : Nat} (hx : x ≠ 0) (hlt : x < UINT_MOD) : x.log2 < UINT_WIDTH :=
  (Nat.log2_lt hx).2 hlt

/-! ## `find_msb` -/

theorem find_msb_loop_run (z k : Nat) (hk : k < UINT_WIDTH) (hlo : 2 ^ k ≤ z)
    (hhi : z < 2 ^ (k + 1)) :
    ∀ d j, j + d = k → ∀ fuel m, d + 2 ≤ fuel →
      find_msb_loop z fuel (2 ^ j) m = .ok (2 ^ (k + 1) % UINT_MOD, some (2 ^ k)) := by
  have hw : UINT_WIDTH = 32 := rfl
  intro d
  induction d with
  | zero =>
    intro j hj fuel m hfuel
    have hjk : j = k := by omega
    subst hjk
    obtain ⟨f, rfl⟩ : ∃ f, fuel = f + 2 := ⟨fuel - 2, by omega⟩
    have hpos : 0 < 2 ^ j := Nat.two_pow_pos _
    have hbit : is_bit_set z (2 ^ j) = true := by
      rw [is_bit_set_two_pow]; exact testBit_of_between hlo hhi
    have hand : ((2 ^ j &&& z) != 0) = true := by
      rw [Nat.land_comm]; exact hbit
    have hshift : (2 ^ j <<< 1) % UINT_MOD = 2 ^ (j + 1) % UINT_MOD := by
      rw [Nat.shiftLeft_eq, Nat.pow_one, ← Nat.pow_succ]
    have hexit : (decide (2 ^ (j + 1) % UINT_MOD ≤ z) && (2 ^ (j + 1) % UINT_MOD != 0)) = false := by
      by_cases hj1 : j + 1 < UINT_WIDTH
      · have hlt : 2 ^ (j + 1) < UINT_MOD := Nat.pow_lt_pow_right (by decide) hj1
        rw [Nat.mod_eq_of_lt hlt]
        simp; omega
      · have : j + 1 = UINT_WIDTH := by omega
        rw [this]
        simp [UINT_MOD]
    rw [find_msb_loop]
    simp only [hlo, decide_True, Bool.true_and, bne_iff_ne, ne_eq, Nat.ne_of_gt hpos,
      not_false_eq_true, ↓reduceIte, hand, hshift]
    rw [find_msb_loop]
    simp only [hexit, Bool.false_eq_true, ↓reduceIte]
  | succ d ih =>
    intro j hj fuel m hfuel
    obtain ⟨f, rfl⟩ : ∃ f, fuel = f + 1 := ⟨fuel - 1, by omega⟩
    have hpos : 0 < 2 ^ j := Nat.two_pow_pos _
    have hle : 2 ^ j ≤ z := Nat.le_trans (Nat.pow_le_pow_right (by decide) (by omega)) hlo
    have hlt : 2 ^ (j + 1) < UINT_MOD :=
      Nat.pow_lt_pow_right (by decide) (by omega : j + 1 < UINT_WIDTH)
    have hshift : (2 ^ j <<< 1) % UINT_MOD = 2 ^ (j + 1) := by
      rw [Nat.shiftLeft_eq, Nat.pow_one, ← Nat.pow_succ, Nat.mod_eq_of_lt hlt]
    rw [find_msb_loop]
    simp only [hle, decide_True, Bool.true_and, bne_iff_ne, ne_eq, Nat.ne_of_gt hpos,
      not_false_eq_true, ↓reduceIte, hshift]
    exact ih (j + 1) (by omega) f _ (by omega)

theorem find_msb_eq {z : Nat} (hz : z ≠ 0) (hlt : z < UINT_MOD) :
    find_msb z = .ok (2 ^ z.log2) := by
  have hrun := find_msb_loop_run z z.log2 (log2_lt_width hz hlt) (Nat.log2_self_le hz)
    Nat.lt_log2_self z.log2 0 (by omega) (UINT_WIDTH + 1) none
    (by have := log2_lt_width hz hlt; omega)
  unfold find_msb
  rw [if_neg hz]
  simp only [Nat.pow_zero] at hrun
  rw [hrun]

/-! ## Reads and `find_max` -/

theorem read_ok {arr : List Nat} {i : Nat} (h : i < arr.length) :
    read arr i = .ok (arr.getD i 0) := by
  unfold read
  simp [List.getElem?_eq_getElem h]

theorem find_max_loop_inv (arr : List Nat) :
    ∀ n s st, s + n = arr.length → MaxInv arr s st →
      ∃ st1, (List.range' s n).foldlM (find_max_step arr) st = .ok st1 ∧
        MaxInv arr arr.length st1 := by
  intro n
  induction n with
  | zero =>
    intro s st hs hinv
    refine ⟨st, by simp [pure, Except.pure], ?_⟩
    have : s = arr.length := by omega
    rw [← this]; exact hinv
  | succ n ih =>
    intro s st hs hinv
    obtain ⟨h1, h2, h3, h4⟩ := hinv
    have hlt : s < arr.length := by omega
    rw [List.range'_succ, List.foldlM_cons]
    by_cases hgt : arr.getD s 0 > st.1
    · have hstep : find_max_step arr st s = .ok (arr.getD s 0, s) := by
        unfold find_max_step; rw [read_ok hlt]; dsimp only; rw [if_pos hgt]
      rw [hstep]
      apply ih (s + 1) (arr.getD s 0, s) (by omega)
      refine ⟨by simp, rfl, ?_, ?_⟩
      · intro j hj
        rcases Nat.eq_or_lt_of_le (Nat.le_of_lt_succ hj) with h | h
        · rw [h]
        · exact Nat.le_trans (h3 j h) (Nat.le_of_lt hgt)
      · intro j hj
        exact Nat.lt_of_le_of_lt (h3 j hj) hgt
    · have hstep : find_max_step arr st s = .ok st := by
        unfold find_max_step; rw [read_ok hlt]; dsimp only; rw [if_neg hgt]
      rw [hstep]
      apply ih (s + 1) st (by omega)
      refine ⟨by omega, h2, ?_, h4⟩
      intro j hj
      rcases Nat.eq_or_lt_of_le (Nat.le_of_lt_succ hj) with h | h
      · rw [h]; omega
      · exact h3 j h

theorem find_max_spec (size : Nat) (arr : List Nat) (hsize : size = arr.length)
    (hpos : 0 < size) :
    ∃ r, find_max size arr = .ok r ∧ r < size ∧
      (∀ j, j < size → arr.getD j 0 ≤ arr.getD r 0) ∧
      (∀ j, j < r → arr.getD j 0 < arr.getD r 0) := by
  subst hsize
  have hinv0 : MaxInv arr 1 (arr.getD 0 0, 0) := by
    refine ⟨Nat.zero_lt_one, rfl, ?_, ?_⟩
    · intro j hj
      have : j = 0 := by omega
      rw [this]
    · intro j hj; omega
  obtain ⟨st1, hrun, h1, h2, h3, h4⟩ :=
    find_max_loop_inv arr (arr.length - 1) 1 (arr.getD 0 0, 0) (by omega) hinv0
  refine ⟨st1.2, ?_, h1, ?_, ?_⟩
  · unfold find_max
    rw [read_ok hpos]
    simp only [hrun]
  · intro j hj; rw [h2]; exact h3 j hj
  · intro j hj; rw [h2]; exact h4 j hj

/-! ## The Nim-sum -/

theorem foldl_xor_init (l : List Nat) (a : Nat) :
    l.foldl (· ^^^ ·) a = a ^^^ nim_sum l := by
  unfold nim_sum
  induction l generalizing a with
  | nil => simp
  | cons v l ih =>
    simp only [List.foldl_cons]
    rw [ih (a ^^^ v), ih (0 ^^^ v), Nat.zero_xor, Nat.xor_assoc]

theorem nim_sum_nil : nim_sum [] = 0 := rfl

theorem nim_sum_cons (v : Nat) (l : List Nat) : nim_sum (v :: l) = v ^^^ nim_sum l := by
  have h := foldl_xor_init l (0 ^^^ v)
  rw [Nat.zero_xor] at h
  unfold nim_sum at h ⊢
  simp only [List.foldl_cons, Nat.zero_xor]
  exact h

theorem nim_sum_append (l1 l2 : List Nat) :
    nim_sum (l1 ++ l2) = nim_sum l1 ^^^ nim_sum l2 := by
  induction l1 with
  | nil => simp [nim_sum_nil]
  | cons v l ih => rw [List.cons_append, nim_sum_cons, nim_sum_cons, ih, Nat.xor_assoc]

theorem nim_sum_lt (l : List Nat) (h : AllUInt l) : nim_sum l < UINT_MOD := by
  induction l with
  | nil => decide
  | cons v l ih =>
    rw [nim_sum_cons]
    exact Nat.xor_lt_two_pow (h v (List.mem_cons_self v l))
      (ih (fun w hw => h w (List.mem_cons_of_mem v hw)))

theorem nim_sum_set (l : List Nat) (i r : Nat) (hi : i < l.length) :
    nim_sum (l.set i r) = nim_sum l ^^^ l.getD i 0 ^^^ r := by
  induction l generalizing i with
  | nil => simp at hi
  | cons v l ih =>
    cases i with
    | zero =>
      simp only [List.set_cons_zero, nim_sum_cons, List.getD_cons_zero]
      rw [Nat.xor_comm v (nim_sum l), Nat.xor_assoc (nim_sum l) v v, Nat.xor_self,
        Nat.xor_zero, Nat.xor_comm]
    | succ i =>
      simp only [List.set_cons_succ, nim_sum_cons, List.getD_cons_succ]
      rw [ih i (by simpa using hi), Nat.xor_assoc, Nat.xor_assoc, Nat.xor_assoc]

theorem exists_testBit_of_nim_sum (l : List Nat) (k : Nat) (h : (nim_sum l).testBit k = true) :
    ∃ v ∈ l, v.testBit k = true := by
  induction l with
  | nil => simp [nim_sum_nil] at h
  | cons v l ih =>
    rw [nim_sum_cons, Nat.testBit_xor] at h
    cases hv : v.testBit k
    · rw [hv] at h
      simp only [Bool.false_bne] at h
      obtain ⟨w, hw, hwk⟩ := ih h
      exact ⟨w, List.mem_cons_of_mem v hw, hwk⟩
    · exact ⟨v, List.mem_cons_self v l, hv⟩

/-- Flipping in a pile the bits of a number whose leading bit the pile has
makes the pile smaller. -/
theorem xor_lt_of_testBit_log2 {x p : Nat} (hx : x ≠ 0) (hp : p.testBit x.log2 = true) :
    x ^^^ p < p := by
  apply Nat.lt_of_testBit x.log2
  · rw [Nat.testBit_xor, testBit_log2 hx, hp]; rfl
  · exact hp
  · intro j hj
    rw [Nat.testBit_xor, testBit_above_log2 hj]; simp

/-! ## `find_winning_move` -/

theorem xor_loop_eq (pile_size : List Nat) :
    ∀ n, n ≤ pile_size.length →
      (List.range n).foldlM (xor_step pile_size) 0 = .ok (nim_sum (pile_size.take n)) := by
  intro n
  induction n with
  | zero => intro _; rfl
  | succ n ih =>
    intro hn
    have hlt : n < pile_size.length := hn
    rw [List.range_succ, List.foldlM_append, ih (Nat.le_of_lt hlt)]
    have htake : pile_size.take (n + 1) = pile_size.take n ++ [pile_size.getD n 0] := by
      rw [List.take_succ]; simp [List.getElem?_eq_getElem hlt]
    rw [htake, nim_sum_append, nim_sum_cons, nim_sum_nil, Nat.xor_zero]
    show (xor_step pile_size (nim_sum (pile_size.take n)) n >>= fun b => List.foldlM _ b []) = _
    unfold xor_step
    rw [read_ok hlt]
    rfl

theorem xor_loop_full (pile_size : List Nat) :
    (List.range pile_size.length).foldlM (xor_step pile_size) 0 = .ok (nim_sum pile_size) := by
  rw [xor_loop_eq pile_size pile_size.length (Nat.le_refl _), List.take_length]

theorem scan_loop_spec (msb : Nat) :
    ∀ (l : List Nat) (s : Nat), (∃ v ∈ l, is_bit_set v msb = true) →
      ∃ i, scan_loop msb l s = .ok (s + i) ∧ i < l.length ∧
        is_bit_set (l.getD i 0) msb = true ∧
        ∀ j, j < i → is_bit_set (l.getD j 0) msb = false := by
  intro l
  induction l with
  | nil => intro s h; obtain ⟨v, hv, _⟩ := h; simp at hv
  | cons w l ih =>
    intro s h
    cases hw : is_bit_set w msb
    · have hrest : ∃ v ∈ l, is_bit_set v msb = true := by
        obtain ⟨v, hv, hvb⟩ := h
        rcases List.mem_cons.1 hv with h1 | h1
        · rw [h1, hw] at hvb; cases hvb
        · exact ⟨v, h1, hvb⟩
      obtain ⟨i, hrun, hi, hbit, hfirst⟩ := ih (s + 1) hrest
      refine ⟨i + 1, ?_, by simpa using hi, by simpa using hbit, ?_⟩
      · rw [scan_loop, hw]
        simp only [Bool.false_eq_true, ↓reduceIte]
        rw [hrun]; congr 1; omega
      · intro j hj
        cases j with
        | zero => simpa using hw
        | succ j => simpa using hfirst j (by omega)
    · refine ⟨0, ?_, by simp, by simpa using hw, ?_⟩
      · rw [scan_loop, hw]; simp
      · intro j hj; omega

/-- The behaviour of `find_winning_move` on a position of nonzero Nim-sum. -/
theorem find_winning_move_spec (piles : List Nat) (hU : AllUInt piles)
    (hx : nim_sum piles ≠ 0) :
    ∃ i, i < piles.length ∧
      is_bit_set (piles.getD i 0) (2 ^ (nim_sum piles).log2) = true ∧
      (∀ j, j < i → is_bit_set (piles.getD j 0) (2 ^ (nim_sum piles).log2) = false) ∧
      nim_sum piles ^^^ piles.getD i 0 < piles.getD i 0 ∧
      find_winning_move piles.length piles =
        .ok (some ⟨i, piles.getD i 0 - (nim_sum piles ^^^ piles.getD i 0)⟩) := by
  have hbitx := testBit_log2 hx
  obtain ⟨v, hv, hvk⟩ := exists_testBit_of_nim_sum piles _ hbitx
  have hex : ∃ v ∈ piles, is_bit_set v (2 ^ (nim_sum piles).log2) = true :=
    ⟨v, hv, by rw [is_bit_set_two_pow]; exact hvk⟩
  obtain ⟨i, hrun, hi, hbit, hfirst⟩ := scan_loop_spec _ piles 0 hex
  have hpi : (piles.getD i 0).testBit (nim_sum piles).log2 = true := by
    rw [← is_bit_set_two_pow]; exact hbit
  have hlt := xor_lt_of_testBit_log2 hx hpi
  have hmem : piles.getD i 0 ∈ piles := by
    simp only [List.getD_eq_getElem?_getD, List.getElem?_eq_getElem hi, Option.getD_some]
    exact List.getElem_mem hi
  have hpU : piles.getD i 0 < UINT_MOD := hU _ hmem
  refine ⟨i, hi, hbit, hfirst, hlt, ?_⟩
  unfold find_winning_move
  rw [xor_loop_full]
  simp only [if_neg hx]
  rw [find_msb_eq hx (nim_sum_lt piles hU)]
  simp only [hrun, Nat.zero_add]
  rw [read_ok hi]
  simp only
  congr 3
  have hsub : piles.getD i 0 + UINT_MOD - (nim_sum piles ^^^ piles.getD i 0) =
      (piles.getD i 0 - (nim_sum piles ^^^ piles.getD i 0)) + UINT_MOD := by omega
  rw [hsub, Nat.add_mod_right, Nat.mod_eq_of_lt]
  omega

theorem find_winning_move_zero (piles : List Nat) (hx : nim_sum piles = 0) :
    find_winning_move piles.length piles = .ok none := by
  unfold find_winning_move
  rw [xor_loop_full]
  simp only [if_pos hx]

/-! ## The game -/

theorem sum_set_getD (l : List Nat) (i r : Nat) (hi : i < l.length) :
    (l.set i r).sum + l.getD i 0 = l.sum + r := by
  induction l generalizing i with
  | nil => simp at hi
  | cons v l ih =>
    cases i with
    | zero => simp only [List.set_cons_zero, List.sum_cons, List.getD_cons_zero]; omega
    | succ i =>
      simp only [List.set_cons_succ, List.sum_cons, List.getD_cons_succ]
      have := ih i (by simpa using hi)
      omega

theorem mem_moves (piles q : List Nat) :
    q ∈ moves piles ↔
      ∃ i c, i < piles.length ∧ 1 ≤ c ∧ c ≤ piles.getD i 0 ∧ q = take_stones piles i c := by
  unfold moves
  simp only [List.mem_flatMap, List.mem_range, List.mem_map]
  constructor
  · rintro ⟨i, hi, c, hc, rfl⟩
    exact ⟨i, c + 1, hi, by omega, by omega, rfl⟩
  · rintro ⟨i, c, hi, hc1, hc2, rfl⟩
    refine ⟨i, hi, c - 1, by omega, ?_⟩
    have : c - 1 + 1 = c := by omega
    rw [this]

theorem sum_take_stones (piles : List Nat) (i c : Nat) (hi : i < piles.length)
    (hc : c ≤ piles.getD i 0) : (take_stones piles i c).sum + c = piles.sum := by
  have h := sum_set_getD piles i (piles.getD i 0 - c) hi
  unfold take_stones
  omega

theorem nim_sum_take_stones (piles : List Nat) (i c : Nat) (hi : i < piles.length) :
    nim_sum (take_stones piles i c) =
      nim_sum piles ^^^ piles.getD i 0 ^^^ (piles.getD i 0 - c) := by
  unfold take_stones
  exact nim_sum_set piles i _ hi

theorem nim_sum_eq_zero_of_sum (piles : List Nat) (h : piles.sum = 0) : nim_sum piles = 0 := by
  induction piles with
  | nil => rfl
  | cons v l ih =>
    rw [List.sum_cons] at h
    have hv : v = 0 := by omega
    rw [nim_sum_cons, ih (by omega), hv]
    rfl

/-- From a position of Nim-sum zero every legal move leaves a nonzero Nim-sum. -/
theorem nim_sum_ne_zero_of_move (piles : List Nat) (i c : Nat) (hx : nim_sum piles = 0)
    (hi : i < piles.length) (hc1 : 1 ≤ c) (hc2 : c ≤ piles.getD i 0) :
    nim_sum (take_stones piles i c) ≠ 0 := by
  rw [nim_sum_take_stones piles i c hi, hx, Nat.zero_xor]
  intro h
  have := Nat.xor_eq_zero.1 h
  omega

/-- From a position of nonzero Nim-sum some legal move leaves Nim-sum zero. -/
theorem exists_winning_move (piles : List Nat) (hx : nim_sum piles ≠ 0) :
    ∃ i c, winning_move piles i c := by
  obtain ⟨v, hv, hvk⟩ := exists_testBit_of_nim_sum piles _ (testBit_log2 hx)
  have hex : ∃ v ∈ piles, is_bit_set v (2 ^ (nim_sum piles).log2) = true :=
    ⟨v, hv, by rw [is_bit_set_two_pow]; exact hvk⟩
  obtain ⟨i, _, hi, hbit, _⟩ := scan_loop_spec _ piles 0 hex
  have hpi : (piles.getD i 0).testBit (nim_sum piles).log2 = true := by
    rw [← is_bit_set_two_pow]; exact hbit
  have hlt := xor_lt_of_testBit_log2 hx hpi
  refine ⟨i, piles.getD i 0 - (nim_sum piles ^^^ piles.getD i 0), hi, by omega, by omega, ?_⟩
  rw [nim_sum_take_stones piles i _ hi]
  have : piles.getD i 0 - (piles.getD i 0 - (nim_sum piles ^^^ piles.getD i 0)) =
      nim_sum piles ^^^ piles.getD i 0 := by omega
  rw [this, Nat.xor_self]

theorem wins_within_iff :
    ∀ fuel piles, piles.sum ≤ fuel → (wins_within fuel piles = true ↔ nim_sum piles ≠ 0) := by
  intro fuel
  induction fuel with
  | zero =>
    intro piles hs
    have h0 : nim_sum piles = 0 := nim_sum_eq_zero_of_sum piles (by omega)
    simp [wins_within, h0]
  | succ fuel ih =>
    intro piles hs
    rw [wins_within, List.any_eq_true]
    constructor
    · rintro ⟨q, hq, hlose⟩ hx
      obtain ⟨i, c, hi, hc1, hc2, rfl⟩ := (mem_moves piles q).1 hq
      have hsum := sum_take_stones piles i c hi hc2
      have hq0 : ¬ (nim_sum (take_stones piles i c) ≠ 0) := by
        rw [← ih _ (by omega)]
        simpa using hlose
      exact hq0 (nim_sum_ne_zero_of_move piles i c hx hi hc1 hc2)
    · intro hx
      obtain ⟨i, c, hi, hc1, hc2, hz⟩ := exists_winning_move piles hx
      refine ⟨take_stones piles i c, (mem_moves piles _).2 ⟨i, c, hi, hc1, hc2, rfl⟩, ?_⟩
      have hsum := sum_take_stones piles i c hi hc2
      have hnot : ¬ (wins_within fuel (take_stones piles i c) = true) := by
        rw [ih _ (by omega)]
        exact fun h => h hz
      simpa using hnot

theorem forced_win_iff_nim_sum (piles : List Nat) :
    forced_win piles = true ↔ nim_sum piles ≠ 0 :=
  wins_within_iff piles.sum piles (Nat.le_refl _)

/-- The value `forced_win` is the game value: the player to move wins exactly
when some legal move leads to a position whose mover does not win. -/
theorem forced_win_iff_exists_move (piles : List Nat) :
    forced_win piles = true ↔ ∃ q ∈ moves piles, forced_win q = false := by
  rw [forced_win_iff_nim_sum]
  constructor
  · intro hx
    obtain ⟨i, c, hi, hc1, hc2, hz⟩ := exists_winning_move piles hx
    refine ⟨_, (mem_moves piles _).2 ⟨i, c, hi, hc1, hc2, rfl⟩, ?_⟩
    have h := forced_win_iff_nim_sum (take_stones piles i c)
    cases hf : forced_win (take_stones piles i c)
    · rfl
    · exact absurd hz (h.1 hf)
  · rintro ⟨q, hq, hlose⟩ hx
    obtain ⟨i, c, hi, hc1, hc2, rfl⟩ := (mem_moves piles q).1 hq
    have h := forced_win_iff_nim_sum (take_stones piles i c)
    have h2 := h.2 (nim_sum_ne_zero_of_move piles i c hx hi hc1 hc2)
    rw [hlose] at h2
    cases h2

theorem take_stones_length (piles : List Nat) (i c : Nat) :
    (take_stones piles i c).length = piles.length := by
  unfold take_stones; simp

theorem find_winning_move_none_iff (piles : List Nat) (hU : AllUInt piles) :
    find_winning_move piles.length piles = .ok none ↔ nim_sum piles = 0 := by
  constructor
  · intro h
    by_contra hx
    obtain ⟨i, _, _, _, _, hrun⟩ := find_winning_move_spec piles hU hx
    rw [hrun] at h
    cases h
  · exact find_winning_move_zero piles

theorem find_winning_move_some_iff (piles : List Nat) (hU : AllUInt piles) :
    (∃ m, find_winning_move piles.length piles = .ok (some m)) ↔ nim_sum piles ≠ 0 := by
  constructor
  · rintro ⟨m, hm⟩ hx
    rw [find_winning_move_zero piles hx] at hm
    cases hm
  · intro hx
    obtain ⟨i, _, _, _, _, hrun⟩ := find_winning_move_spec piles hU hx
    exact ⟨_, hrun⟩

theorem winning_move_found (piles : List Nat) (hU : AllUInt piles)
    (hx : nim_sum piles ≠ 0) :
    ∃ m, find_winning_move piles.length piles = .ok (some m) ∧
      m.move_pile < piles.length ∧
      m.move_count ≤ piles.getD m.move_pile 0 ∧
      nim_sum (take_stones piles m.move_pile m.move_count) = 0 := by
  obtain ⟨i, hi, _, _, hlt, hrun⟩ := find_winning_move_spec piles hU hx
  have hz : nim_sum (take_stones piles i
      (piles.getD i 0 - (nim_sum piles ^^^ piles.getD i 0))) = 0 := by
    rw [nim_sum_take_stones piles i _ hi]
    have : piles.getD i 0 - (piles.getD i 0 - (nim_sum piles ^^^ piles.getD i 0)) =
        nim_sum piles ^^^ piles.getD i 0 := by omega
    rw [this, Nat.xor_self]
  exact ⟨_, hrun, hi, Nat.sub_le _ _, hz⟩

/-! ## The claims -/

/-- C1: on every sequence of 32-bit pile sizes whose Nim-sum is nonzero,
`find_winning_move` returns true with a move `(move_pile, move_count)`, and
replacing `piles[move_pile]` by `piles[move_pile] - move_count` (an exact
subtraction: the count is at most the pile) makes the xor of all piles zero. -/
theorem find_winning_move_zeroes_nim_sum (piles : List Nat) (hU : AllUInt piles)
    (hx : nim_sum piles ≠ 0) :
    ∃ m, find_winning_move piles.length piles = .ok (some m) ∧
      m.move_count ≤ piles.getD m.move_pile 0 ∧
      nim_sum (piles.set m.move_pile (piles.getD m.move_pile 0 - m.move_count)) = 0 ∧
      nim_sum (take_stones piles m.move_pile m.move_count) = 0 := by
  obtain ⟨m, hrun, _, hle, hz⟩ := winning_move_found piles hU hx
  exact ⟨m, hrun, hle, hz, hz⟩

theorem find_winning_move_zeroes_nim_sum_witness :
    AllUInt [3, 4, 5] ∧ nim_sum [3, 4, 5] ≠ 0 ∧
      ∃ m, find_winning_move [3, 4, 5].length [3, 4, 5] = .ok (some m) ∧
        m.move_count ≤ [3, 4, 5].getD m.move_pile 0 ∧
        nim_sum ([3, 4, 5].set m.move_pile ([3, 4, 5].getD m.move_pile 0 - m.move_count)) = 0 ∧
        nim_sum (take_stones [3, 4, 5] m.move_pile m.move_count) = 0 :=
  ⟨by decide, by decide, find_winning_move_zeroes_nim_sum [3, 4, 5] (by decide) (by decide)⟩

/-- C2: on every sequence of 32-bit pile sizes (the empty one and the all-zero
ones included) `find_winning_move` returns true if and only if there is a
winning move: a pile `i < n` and a count `1 ≤ c ≤ piles[i]` whose removal
leaves the Nim-sum at zero. It returns false exactly when the xor of all piles
is 0, and then no valid move reaches Nim-sum zero. -/
theorem find_winning_move_iff_winning_move (piles : List Nat) (hU : AllUInt piles) :
    ((∃ m, find_winning_move piles.length piles = .ok (some m)) ↔
        ∃ i c, winning_move piles i c) ∧
      (find_winning_move piles.length piles = .ok none ↔ nim_sum piles = 0) ∧
      (nim_sum piles = 0 → ¬ ∃ i c, winning_move piles i c) := by
  have hno : nim_sum piles = 0 → ¬ ∃ i c, winning_move piles i c := by
    rintro hx ⟨i, c, hi, hc1, hc2, hz⟩
    exact nim_sum_ne_zero_of_move piles i c hx hi hc1 hc2 hz
  refine ⟨?_, find_winning_move_none_iff piles hU, hno⟩
  rw [find_winning_move_some_iff piles hU]
  constructor
  · exact exists_winning_move piles
  · intro hw hx
    exact hno hx hw

theorem find_winning_move_iff_winning_move_witness :
    AllUInt [1, 1] ∧
      ((∃ m, find_winning_move [1, 1].length [1, 1] = .ok (some m)) ↔
          ∃ i c, winning_move [1, 1] i c) ∧
      (find_winning_move [1, 1].length [1, 1] = .ok none ↔ nim_sum [1, 1] = 0) ∧
      (nim_sum [1, 1] = 0 → ¬ ∃ i c, winning_move [1, 1] i c) :=
  ⟨by decide, find_winning_move_iff_winning_move [1, 1] (by decide)⟩

/-- C3: on every sequence of 32-bit pile sizes `find_winning_move` returns true
if and only if the player to move has a forced win in normal-play Nim (a move
removes at least one stone from exactly one pile, the player who cannot move
loses); and the Nim-sum is zero if and only if the position is a loss for the
player to move. -/
theorem find_winning_move_iff_forced_win (piles : List Nat) (hU : AllUInt piles) :
    ((∃ m, find_winning_move piles.length piles = .ok (some m)) ↔ forced_win piles = true) ∧
      (find_winning_move piles.length piles = .ok none ↔ forced_win piles = false) ∧
      (nim_sum piles = 0 ↔ forced_win piles = false) := by
  have hz : nim_sum piles = 0 ↔ forced_win piles = false := by
    have h := forced_win_iff_nim_sum piles
    cases hf : forced_win piles
    · rw [hf] at h
      simp only [Bool.false_eq_true, ne_eq, false_iff, not_not] at h
      simp [h]
    · rw [hf] at h
      simp only [true_iff] at h
      simp [h]
  refine ⟨?_, ?_, hz⟩
  · rw [find_winning_move_some_iff piles hU, forced_win_iff_nim_sum]
  · rw [find_winning_move_none_iff piles hU, hz]

theorem find_winning_move_iff_forced_win_witness :
    AllUInt [3, 4, 5] ∧
      ((∃ m, find_winning_move [3, 4, 5].length [3, 4, 5] = .ok (some m)) ↔
          forced_win [3, 4, 5] = true) ∧
      (find_winning_move [3, 4, 5].length [3, 4, 5] = .ok none ↔
          forced_win [3, 4, 5] = false) ∧
      (nim_sum [3, 4, 5] = 0 ↔ forced_win [3, 4, 5] = false) :=
  ⟨by decide, find_winning_move_iff_forced_win [3, 4, 5] (by decide)⟩

/-- C4: on every sequence of 32-bit pile sizes with nonzero Nim-sum the count
returned by `find_winning_move` satisfies `1 ≤ move_count ≤ piles[move_pile]`:
the subtrahend `xor ^ piles[i]` is strictly below `piles[i]`, so the unsigned
subtraction does not wrap around (the count is the exact difference) and does
not yield 0. -/
theorem find_winning_move_count_bounds (piles : List Nat) (hU : AllUInt piles)
    (hx : nim_sum piles ≠ 0) :
    ∃ m, find_winning_move piles.length piles = .ok (some m) ∧
      1 ≤ m.move_count ∧ m.move_count ≤ piles.getD m.move_pile 0 ∧
      nim_sum piles ^^^ piles.getD m.move_pile 0 < piles.getD m.move_pile 0 ∧
      m.move_count + (nim_sum piles ^^^ piles.getD m.move_pile 0) =
        piles.getD m.move_pile 0 := by
  obtain ⟨i, hi, _, _, hlt, hrun⟩ := find_winning_move_spec piles hU hx
  refine ⟨_, hrun, ?_, ?_, hlt, ?_⟩
  · show 1 ≤ piles.getD i 0 - (nim_sum piles ^^^ piles.getD i 0); omega
  · show piles.getD i 0 - (nim_sum piles ^^^ piles.getD i 0) ≤ piles.getD i 0; omega
  · show piles.getD i 0 - (nim_sum piles ^^^ piles.getD i 0) +
      (nim_sum piles ^^^ piles.getD i 0) = piles.getD i 0
    omega

theorem find_winning_move_count_bounds_witness :
    AllUInt [4294967295, 1] ∧ nim_sum [4294967295, 1] ≠ 0 ∧
      ∃ m, find_winning_move [4294967295, 1].length [4294967295, 1] = .ok (some m) ∧
        1 ≤ m.move_count ∧ m.move_count ≤ [4294967295, 1].getD m.move_pile 0 ∧
        nim_sum [4294967295, 1] ^^^ [4294967295, 1].getD m.move_pile 0 <
          [4294967295, 1].getD m.move_pile 0 ∧
        m.move_count + (nim_sum [4294967295, 1] ^^^ [4294967295, 1].getD m.move_pile 0) =
          [4294967295, 1].getD m.move_pile 0 :=
  ⟨by decide, by decide,
    find_winning_move_count_bounds [4294967295, 1] (by decide) (by decide)⟩

/-- C5: on every sequence of `n` 32-bit pile sizes with nonzero Nim-sum a pile
with the bit `find_msb(xor)` set exists, so the scan loop of
`find_winning_move` stops without a read outside the array, at an index
`move_pile < n`, which is the index returned. -/
theorem find_winning_move_scan_in_bounds (piles : List Nat) (hU : AllUInt piles)
    (hx : nim_sum piles ≠ 0) :
    ∃ msb i, find_msb (nim_sum piles) = .ok msb ∧
      (∃ v ∈ piles, is_bit_set v msb = true) ∧
      scan_loop msb piles 0 = .ok i ∧ i < piles.length ∧
      ∃ m, find_winning_move piles.length piles = .ok (some m) ∧ m.move_pile = i := by
  obtain ⟨v, hv, hvk⟩ := exists_testBit_of_nim_sum piles _ (testBit_log2 hx)
  have hex : ∃ v ∈ piles, is_bit_set v (2 ^ (nim_sum piles).log2) = true :=
    ⟨v, hv, by rw [is_bit_set_two_pow]; exact hvk⟩
  obtain ⟨i, hrun, hi, hbit, hfirst⟩ := scan_loop_spec _ piles 0 hex
  rw [Nat.zero_add] at hrun
  obtain ⟨i1, _, hbit1, hfirst1, _, hfwm⟩ := find_winning_move_spec piles hU hx
  have hii : i1 = i := by
    rcases Nat.lt_trichotomy i1 i with h | h | h
    · have := hfirst i1 h; rw [hbit1] at this; cases this
    · exact h
    · have := hfirst1 i h; rw [hbit] at this; cases this
  exact ⟨_, i, find_msb_eq hx (nim_sum_lt piles hU), hex, hrun, hi, _, hfwm, hii⟩

theorem find_winning_move_scan_in_bounds_witness :
    AllUInt [1, 2, 12, 8] ∧ nim_sum [1, 2, 12, 8] ≠ 0 ∧
      ∃ msb i, find_msb (nim_sum [1, 2, 12, 8]) = .ok msb ∧
        (∃ v ∈ [1, 2, 12, 8], is_bit_set v msb = true) ∧
        scan_loop msb [1, 2, 12, 8] 0 = .ok i ∧ i < [1, 2, 12, 8].length ∧
        ∃ m, find_winning_move [1, 2, 12, 8].length [1, 2, 12, 8] = .ok (some m) ∧
          m.move_pile = i :=
  ⟨by decide, by decide,
    find_winning_move_scan_in_bounds [1, 2, 12, 8] (by decide) (by decide)⟩

/-- C6: when `find_winning_move` returns true with the move `(i, c)` on a
sequence of 32-bit pile sizes, running it again on the position obtained by
removing `c` stones from pile `i` returns false. -/
theorem find_winning_move_after_move (piles : List Nat) (m : Move) (hU : AllUInt piles)
    (hm : find_winning_move piles.length piles = .ok (some m)) :
    find_winning_move (take_stones piles m.move_pile m.move_count).length
      (take_stones piles m.move_pile m.move_count) = .ok none := by
  have hx : nim_sum piles ≠ 0 := (find_winning_move_some_iff piles hU).1 ⟨m, hm⟩
  obtain ⟨m1, hm1, _, _, hz⟩ := winning_move_found piles hU hx
  rw [hm] at hm1
  cases hm1
  exact find_winning_move_zero _ hz

theorem find_winning_move_after_move_witness :
    AllUInt [3, 4, 5] ∧ find_winning_move [3, 4, 5].length [3, 4, 5] = .ok (some ⟨0, 2⟩) ∧
      find_winning_move (take_stones [3, 4, 5] 0 2).length (take_stones [3, 4, 5] 0 2) =
        .ok none :=
  ⟨by decide, by decide, find_winning_move_after_move [3, 4, 5] ⟨0, 2⟩ (by decide) (by decide)⟩

/-- C7: for every 32-bit unsigned `z`, `find_msb z` returns 0 when `z = 0` and
otherwise `2 ^ floor(log2 z)`, the one power of two `p` with `p ≤ z < 2 * p`
(as mathematical integers); for `z ≥ 2 ^ 31` the result is `2 ^ 31`. -/
theorem find_msb_correct (z : Nat) (hz : z < UINT_MOD) :
    (z = 0 → find_msb z = .ok 0) ∧
      (z ≠ 0 → find_msb z = .ok (2 ^ z.log2) ∧ 2 ^ z.log2 ≤ z ∧ z < 2 * 2 ^ z.log2 ∧
        ∀ k, 2 ^ k ≤ z → z < 2 * 2 ^ k → 2 ^ k = 2 ^ z.log2) ∧
      (2 ^ 31 ≤ z → find_msb z = .ok (2 ^ 31)) := by
  have hpos : ∀ {y : Nat}, y ≠ 0 → y < 2 * 2 ^ y.log2 := by
    intro y _
    have h := @Nat.lt_log2_self y
    rw [Nat.pow_succ] at h
    omega
  refine ⟨?_, ?_, ?_⟩
  · intro h0; rw [h0]; rfl
  · intro hne
    refine ⟨find_msb_eq hne hz, Nat.log2_self_le hne, hpos hne, ?_⟩
    intro k hlo hhi
    have h1 : k ≤ z.log2 := (Nat.le_log2 hne).2 hlo
    have h2 : z.log2 < k + 1 := (Nat.log2_lt hne).2 (by rw [Nat.pow_succ]; omega)
    have : k = z.log2 := by omega
    rw [this]
  · intro hbig
    have hne : z ≠ 0 := by
      intro h0
      rw [h0] at hbig
      exact absurd hbig (by decide)
    have h1 : 31 ≤ z.log2 := (Nat.le_log2 hne).2 hbig
    have h2 : z.log2 < 32 := log2_lt_width hne hz
    have : z.log2 = 31 := by omega
    rw [find_msb_eq hne hz, this]

theorem find_msb_correct_witness :
    4294967295 < UINT_MOD ∧
      (4294967295 = 0 → find_msb 4294967295 = .ok 0) ∧
      (4294967295 ≠ 0 → find_msb 4294967295 = .ok (2 ^ (4294967295 : Nat).log2) ∧
        2 ^ (4294967295 : Nat).log2 ≤ 4294967295 ∧
        4294967295 < 2 * 2 ^ (4294967295 : Nat).log2 ∧
        ∀ k, 2 ^ k ≤ 4294967295 → 4294967295 < 2 * 2 ^ k →
          2 ^ k = 2 ^ (4294967295 : Nat).log2) ∧
      (2 ^ 31 ≤ 4294967295 → find_msb 4294967295 = .ok (2 ^ 31)) :=
  ⟨by decide, find_msb_correct 4294967295 (by decide)⟩

/-- C8: for every non-empty array `arr` of length `size`, `find_max size arr`
returns an index `r < size` such that `arr[r] ≥ arr[j]` for every `j < size`. -/
theorem find_max_is_maximal (size : Nat) (arr : List Nat) (hsize : size = arr.length)
    (hpos : 0 < size) :
    ∃ r, find_max size arr = .ok r ∧ r < size ∧
      ∀ j, j < size → arr.getD j 0 ≤ arr.getD r 0 := by
  obtain ⟨r, hrun, hr, hmax, _⟩ := find_max_spec size arr hsize hpos
  exact ⟨r, hrun, hr, hmax⟩

theorem find_max_is_maximal_witness :
    4 = [3, 7, 7, 2].length ∧ 0 < 4 ∧
      ∃ r, find_max 4 [3, 7, 7, 2] = .ok r ∧ r < 4 ∧
        ∀ j, j < 4 → [3, 7, 7, 2].getD j 0 ≤ [3, 7, 7, 2].getD r 0 :=
  ⟨by decide, by decide, find_max_is_maximal 4 [3, 7, 7, 2] (by decide) (by decide)⟩

/-- C9: for every non-empty array `arr` of length `size`, `find_max` returns the
first (lowest-index) occurrence of the maximum: the returned index `r` is in
range, `arr[r]` is the maximum (no element of the array is larger), and every
element at an index strictly below `r` is strictly smaller than `arr[r]`, so
`r` is the least index that holds the maximum. -/
theorem find_max_first_occurrence (size : Nat) (arr : List Nat) (hsize : size = arr.length)
    (hpos : 0 < size) :
    ∃ r, find_max size arr = .ok r ∧ r < size ∧
      (∀ j, j < size → arr.getD j 0 ≤ arr.getD r 0) ∧
      (∀ j, j < r → arr.getD j 0 < arr.getD r 0) ∧
      (∀ j, j < size → arr.getD j 0 = arr.getD r 0 → r ≤ j) := by
  obtain ⟨r, hrun, hr, hmax, hfirst⟩ := find_max_spec size arr hsize hpos
  refine ⟨r, hrun, hr, hmax, hfirst, ?_⟩
  intro j _ hjeq
  by_contra hlt
  have := hfirst j (by omega)
  omega

theorem find_max_first_occurrence_witness :
    5 = [3, 7, 9, 9, 2].length ∧ 0 < 5 ∧ find_max 5 [3, 7, 9, 9, 2] = .ok 2 ∧
      ∃ r, find_max 5 [3, 7, 9, 9, 2] = .ok r ∧ r < 5 ∧
        (∀ j, j < 5 → [3, 7, 9, 9, 2].getD j 0 ≤ [3, 7, 9, 9, 2].getD r 0) ∧
        (∀ j, j < r → [3, 7, 9, 9, 2].getD j 0 < [3, 7, 9, 9, 2].getD r 0) ∧
        (∀ j, j < 5 → [3, 7, 9, 9, 2].getD j 0 = [3, 7, 9, 9, 2].getD r 0 → r ≤ j) :=
  ⟨by decide, by decide, by decide,
    find_max_first_occurrence 5 [3, 7, 9, 9, 2] (by decide) (by decide)⟩

/-- C10: for every `num` and every power of two `b = 2 ^ k`, `is_bit_set num b`
is true if and only if bit `k` of the binary representation of `num` is 1; in
particular for every 32-bit unsigned `num` and every `k < 32`. -/
theorem is_bit_set_iff_bit (num k : Nat) :
    (is_bit_set num (2 ^ k) = true ↔ num / 2 ^ k % 2 = 1) ∧
      (is_bit_set num (2 ^ k) = true ↔ num.testBit k = true) := by
  have h2 : is_bit_set num (2 ^ k) = num.testBit k := is_bit_set_two_pow num k
  refine ⟨?_, by rw [h2]⟩
  rw [h2, Nat.testBit_to_div_mod]
  simp

/-! ## The shifts of `find_msb` -/

theorem find_msb_shifts_run (z k : Nat) (hk : k < UINT_WIDTH) (hlo : 2 ^ k ≤ z)
    (hhi : z < 2 ^ (k + 1)) :
    ∀ d j, j + d = k → ∀ fuel, d + 2 ≤ fuel →
      find_msb_shifts z fuel (2 ^ j) =
        (List.range' (j + 1) (d + 1)).map fun t => 2 ^ t % UINT_MOD := by
  have hw : UINT_WIDTH = 32 := rfl
  intro d
  induction d with
  | zero =>
    intro j hj fuel hfuel
    have hjk : j = k := by omega
    subst hjk
    obtain ⟨f, rfl⟩ : ∃ f, fuel = f + 2 := ⟨fuel - 2, by omega⟩
    have hpos : 0 < 2 ^ j := Nat.two_pow_pos _
    have hshift : (2 ^ j <<< 1) % UINT_MOD = 2 ^ (j + 1) % UINT_MOD := by
      rw [Nat.shiftLeft_eq, Nat.pow_one, ← Nat.pow_succ]
    have hexit : (decide (2 ^ (j + 1) % UINT_MOD ≤ z) && (2 ^ (j + 1) % UINT_MOD != 0)) = false := by
      by_cases hj1 : j + 1 < UINT_WIDTH
      · have hlt : 2 ^ (j + 1) < UINT_MOD := Nat.pow_lt_pow_right (by decide) hj1
        rw [Nat.mod_eq_of_lt hlt]
        simp; omega
      · have : j + 1 = UINT_WIDTH := by omega
        rw [this]
        simp [UINT_MOD]
    rw [find_msb_shifts]
    simp only [hlo, decide_True, Bool.true_and, bne_iff_ne, ne_eq, Nat.ne_of_gt hpos,
      not_false_eq_true, ↓reduceIte, hshift]
    rw [find_msb_shifts]
    simp only [hexit, Bool.false_eq_true, ↓reduceIte]
    rfl
  | succ d ih =>
    intro j hj fuel hfuel
    obtain ⟨f, rfl⟩ : ∃ f, fuel = f + 1 := ⟨fuel - 1, by omega⟩
    have hpos : 0 < 2 ^ j := Nat.two_pow_pos _
    have hle : 2 ^ j ≤ z := Nat.le_trans (Nat.pow_le_pow_right (by decide) (by omega)) hlo
    have hlt : 2 ^ (j + 1) < UINT_MOD :=
      Nat.pow_lt_pow_right (by decide) (by omega : j + 1 < UINT_WIDTH)
    have hshift : (2 ^ j <<< 1) % UINT_MOD = 2 ^ (j + 1) := by
      rw [Nat.shiftLeft_eq, Nat.pow_one, ← Nat.pow_succ, Nat.mod_eq_of_lt hlt]
    rw [find_msb_shifts]
    simp only [hle, decide_True, Bool.true_and, bne_iff_ne, ne_eq, Nat.ne_of_gt hpos,
      not_false_eq_true, ↓reduceIte, hshift]
    rw [ih (j + 1) (by omega) f (by omega), List.range'_succ (j + 1) (d + 1), List.map_cons,
      Nat.mod_eq_of_lt hlt]

theorem find_msb_shifts_eq {z : Nat} (hz : z ≠ 0) (hlt : z < UINT_MOD) :
    find_msb_shifts z (UINT_WIDTH + 1) 1 =
      (List.range' 1 (z.log2 + 1)).map fun t => 2 ^ t % UINT_MOD := by
  have hrun := find_msb_shifts_run z z.log2 (log2_lt_width hz hlt) (Nat.log2_self_le hz)
    Nat.lt_log2_self z.log2 0 (by omega) (UINT_WIDTH + 1)
    (by have := log2_lt_width hz hlt; omega)
  simp only [Nat.pow_zero, Nat.zero_add] at hrun
  exact hrun

theorem find_msb_exit_state {z : Nat} (hz : z ≠ 0) (hlt : z < UINT_MOD) :
    find_msb_loop z (UINT_WIDTH + 1) 1 none =
      .ok (2 ^ (z.log2 + 1) % UINT_MOD, some (2 ^ z.log2)) := by
  have hrun := find_msb_loop_run z z.log2 (log2_lt_width hz hlt) (Nat.log2_self_le hz)
    Nat.lt_log2_self z.log2 0 (by omega) (UINT_WIDTH + 1) none
    (by have := log2_lt_width hz hlt; omega)
  simp only [Nat.pow_zero] at hrun
  exact hrun

/-! ## The claims on the chosen pile, the count and the bit scan -/

/-- C16: on every sequence of 32-bit pile sizes with nonzero Nim-sum `x`, the
pile index returned by `find_winning_move` is the first index `i` such that
`is_bit_set(piles[i], find_msb(x))` is true: no pile at a lower index has that
bit set. -/
theorem find_winning_move_first_pile (piles : List Nat) (hU : AllUInt piles)
    (hx : nim_sum piles ≠ 0) :
    ∃ msb m, find_msb (nim_sum piles) = .ok msb ∧
      find_winning_move piles.length piles = .ok (some m) ∧
      m.move_pile < piles.length ∧
      is_bit_set (piles.getD m.move_pile 0) msb = true ∧
      ∀ j, j < m.move_pile → is_bit_set (piles.getD j 0) msb = false := by
  obtain ⟨i, hi, hbit, hfirst, _, hrun⟩ := find_winning_move_spec piles hU hx
  exact ⟨_, _, find_msb_eq hx (nim_sum_lt piles hU), hrun, hi, hbit, hfirst⟩

theorem find_winning_move_first_pile_witness :
    AllUInt [1, 2, 12, 8] ∧ nim_sum [1, 2, 12, 8] ≠ 0 ∧
      ∃ msb m, find_msb (nim_sum [1, 2, 12, 8]) = .ok msb ∧
        find_winning_move [1, 2, 12, 8].length [1, 2, 12, 8] = .ok (some m) ∧
        m.move_pile < [1, 2, 12, 8].length ∧
        is_bit_set ([1, 2, 12, 8].getD m.move_pile 0) msb = true ∧
        ∀ j, j < m.move_pile → is_bit_set ([1, 2, 12, 8].getD j 0) msb = false :=
  ⟨by decide, by decide, find_winning_move_first_pile [1, 2, 12, 8] (by decide) (by decide)⟩

/-- C17, as the code has it: on every sequence of 32-bit pile sizes with
nonzero Nim-sum `x` and chosen pile `i`, the value `target = x xor piles[i]` is
below `piles[i]` and is the number of stones to leave in pile `i` so that the
new overall xor becomes zero, and the count returned by `find_winning_move`
equals `piles[i] - target`. -/
theorem find_winning_move_target (piles : List Nat) (hU : AllUInt piles)
    (hx : nim_sum piles ≠ 0) :
    ∃ m, find_winning_move piles.length piles = .ok (some m) ∧
      nim_sum piles ^^^ piles.getD m.move_pile 0 < piles.getD m.move_pile 0 ∧
      nim_sum (piles.set m.move_pile (nim_sum piles ^^^ piles.getD m.move_pile 0)) = 0 ∧
      m.move_count = piles.getD m.move_pile 0 - (nim_sum piles ^^^ piles.getD m.move_pile 0) := by
  obtain ⟨i, hi, _, _, hlt, hrun⟩ := find_winning_move_spec piles hU hx
  refine ⟨_, hrun, hlt, ?_, rfl⟩
  show nim_sum (piles.set i (nim_sum piles ^^^ piles.getD i 0)) = 0
  rw [nim_sum_set piles i _ hi, Nat.xor_self]

theorem find_winning_move_target_witness :
    AllUInt [3, 4, 5] ∧ nim_sum [3, 4, 5] ≠ 0 ∧
      ∃ m, find_winning_move [3, 4, 5].length [3, 4, 5] = .ok (some m) ∧
        nim_sum [3, 4, 5] ^^^ [3, 4, 5].getD m.move_pile 0 < [3, 4, 5].getD m.move_pile 0 ∧
        nim_sum ([3, 4, 5].set m.move_pile
          (nim_sum [3, 4, 5] ^^^ [3, 4, 5].getD m.move_pile 0)) = 0 ∧
        m.move_count =
          [3, 4, 5].getD m.move_pile 0 - (nim_sum [3, 4, 5] ^^^ [3, 4, 5].getD m.move_pile 0) :=
  ⟨by decide, by decide, find_winning_move_target [3, 4, 5] (by decide) (by decide)⟩

/-- C17 as stated fails on the piles 3, 4, 5: the Nim-sum is 2 and
`find_winning_move` returns pile 0 and count 2; leaving
`piles[0] - (x xor piles[0]) = 2` stones in pile 0 does not make the xor zero,
and the count 2 is not `piles[0] - 2`. -/
theorem find_winning_move_target_counterexample :
    find_winning_move [3, 4, 5].length [3, 4, 5] = .ok (some ⟨0, 2⟩) ∧
      nim_sum [3, 4, 5] = 2 ∧
      [3, 4, 5].getD 0 0 - (nim_sum [3, 4, 5] ^^^ [3, 4, 5].getD 0 0) = 2 ∧
      nim_sum ([3, 4, 5].set 0
        ([3, 4, 5].getD 0 0 - (nim_sum [3, 4, 5] ^^^ [3, 4, 5].getD 0 0))) ≠ 0 ∧
      (2 : Nat) ≠ [3, 4, 5].getD 0 0 -
        ([3, 4, 5].getD 0 0 - (nim_sum [3, 4, 5] ^^^ [3, 4, 5].getD 0 0)) := by
  decide

/-- C18: on every sequence of 32-bit pile sizes with nonzero Nim-sum `x` and
chosen pile `i`, the number of stones left in pile `i` after the returned move,
`piles[i] - move_count` (the count is at most the pile), equals
`x xor piles[i]`, and this value is strictly less than `piles[i]`. -/
theorem find_winning_move_stones_left (piles : List Nat) (hU : AllUInt piles)
    (hx : nim_sum piles ≠ 0) :
    ∃ m, find_winning_move piles.length piles = .ok (some m) ∧
      m.move_count ≤ piles.getD m.move_pile 0 ∧
      piles.getD m.move_pile 0 - m.move_count = nim_sum piles ^^^ piles.getD m.move_pile 0 ∧
      piles.getD m.move_pile 0 - m.move_count < piles.getD m.move_pile 0 := by
  obtain ⟨i, hi, _, _, hlt, hrun⟩ := find_winning_move_spec piles hU hx
  refine ⟨_, hrun, ?_, ?_, ?_⟩
  · show piles.getD i 0 - (nim_sum piles ^^^ piles.getD i 0) ≤ piles.getD i 0
    omega
  · show piles.getD i 0 - (piles.getD i 0 - (nim_sum piles ^^^ piles.getD i 0)) =
      nim_sum piles ^^^ piles.getD i 0
    omega
  · show piles.getD i 0 - (piles.getD i 0 - (nim_sum piles ^^^ piles.getD i 0)) <
      piles.getD i 0
    omega

theorem find_winning_move_stones_left_witness :
    AllUInt [7, 9, 4294967295] ∧ nim_sum [7, 9, 4294967295] ≠ 0 ∧
      ∃ m, find_winning_move [7, 9, 4294967295].length [7, 9, 4294967295] = .ok (some m) ∧
        m.move_count ≤ [7, 9, 4294967295].getD m.move_pile 0 ∧
        [7, 9, 4294967295].getD m.move_pile 0 - m.move_count =
          nim_sum [7, 9, 4294967295] ^^^ [7, 9, 4294967295].getD m.move_pile 0 ∧
        [7, 9, 4294967295].getD m.move_pile 0 - m.move_count <
          [7, 9, 4294967295].getD m.move_pile 0 :=
  ⟨by decide, by decide,
    find_winning_move_stones_left [7, 9, 4294967295] (by decide) (by decide)⟩

/-- C19, as the code has it: for every 32-bit unsigned `z > 0` the values that
the shifts of `find_msb` give to `curr_bit` are `2 ^ t` modulo `2 ^ 32` for `t`
from 1 to `floor(log2 z) + 1`, and the loop exits with `msb` the leading bit of
`z`. For `z < 2 ^ 31` every one of them is nonzero and the loop exits because
`curr_bit > z`. For `z ≥ 2 ^ 31` the last shift wraps `curr_bit` around to 0 and
the loop exits on its test `curr_bit != 0`, with `curr_bit ≤ z`. -/
theorem find_msb_shift_register (z : Nat) (hpos : 0 < z) (hz : z < UINT_MOD) :
    ∃ curr_bit, find_msb_loop z (UINT_WIDTH + 1) 1 none = .ok (curr_bit, some (2 ^ z.log2)) ∧
      find_msb_shifts z (UINT_WIDTH + 1) 1 =
        ((List.range' 1 (z.log2 + 1)).map fun t => 2 ^ t % UINT_MOD) ∧
      (z < 2 ^ 31 → (∀ c ∈ find_msb_shifts z (UINT_WIDTH + 1) 1, c ≠ 0) ∧ z < curr_bit) ∧
      (2 ^ 31 ≤ z → 0 ∈ find_msb_shifts z (UINT_WIDTH + 1) 1 ∧ curr_bit = 0 ∧ curr_bit ≤ z) := by
  have hne : z ≠ 0 := by omega
  have hw : UINT_WIDTH = 32 := rfl
  have hk : z.log2 < UINT_WIDTH := log2_lt_width hne hz
  refine ⟨_, find_msb_exit_state hne hz, find_msb_shifts_eq hne hz, ?_, ?_⟩
  · intro hsmall
    have hk30 : z.log2 < 31 := (Nat.log2_lt hne).2 hsmall
    constructor
    · intro c hc
      rw [find_msb_shifts_eq hne hz] at hc
      obtain ⟨t, ht, rfl⟩ := List.mem_map.1 hc
      have ht2 : t < UINT_WIDTH := by
        have := (List.mem_range'_1.1 ht).2
        omega
      have hlt : 2 ^ t < UINT_MOD := Nat.pow_lt_pow_right (by decide) ht2
      rw [Nat.mod_eq_of_lt hlt]
      exact Nat.ne_of_gt (Nat.two_pow_pos t)
    · have hlt : 2 ^ (z.log2 + 1) < UINT_MOD :=
        Nat.pow_lt_pow_right (by decide) (by omega : z.log2 + 1 < UINT_WIDTH)
      rw [Nat.mod_eq_of_lt hlt]
      exact Nat.lt_log2_self
  · intro hbig
    have h31 : 31 ≤ z.log2 := (Nat.le_log2 hne).2 hbig
    have hk31 : z.log2 = 31 := by omega
    have hzero : 2 ^ (z.log2 + 1) % UINT_MOD = 0 := by rw [hk31]; decide
    refine ⟨?_, hzero, ?_⟩
    · rw [find_msb_shifts_eq hne hz]
      refine List.mem_map.2 ⟨z.log2 + 1, ?_, hzero⟩
      rw [List.mem_range'_1]
      omega
    · rw [hzero]; exact Nat.zero_le z

theorem find_msb_shift_register_witness :
    0 < 5 ∧ 5 < UINT_MOD ∧
      ∃ curr_bit, find_msb_loop 5 (UINT_WIDTH + 1) 1 none =
          .ok (curr_bit, some (2 ^ (5 : Nat).log2)) ∧
        find_msb_shifts 5 (UINT_WIDTH + 1) 1 =
          ((List.range' 1 ((5 : Nat).log2 + 1)).map fun t => 2 ^ t % UINT_MOD) ∧
        (5 < 2 ^ 31 → (∀ c ∈ find_msb_shifts 5 (UINT_WIDTH + 1) 1, c ≠ 0) ∧ 5 < curr_bit) ∧
        (2 ^ 31 ≤ 5 → 0 ∈ find_msb_shifts 5 (UINT_WIDTH + 1) 1 ∧ curr_bit = 0 ∧ curr_bit ≤ 5) :=
  ⟨by decide, by decide, find_msb_shift_register 5 (by decide) (by decide)⟩

/-- C19 as stated fails at `z = 2 ^ 31`: the shifts give `curr_bit` the values
`2, 4, ..., 2 ^ 31` and then 0, and the loop exits with `curr_bit = 0`, which is
not above `z`. -/
theorem find_msb_shift_register_counterexample :
    0 < 2147483648 ∧ 2147483648 < UINT_MOD ∧
      find_msb_loop 2147483648 (UINT_WIDTH + 1) 1 none = .ok (0, some 2147483648) ∧
      0 ∈ find_msb_shifts 2147483648 (UINT_WIDTH + 1) 1 ∧
      (2147483648 <<< 1) % UINT_MOD = 0 ∧
      ¬ (2147483648 < 0) := by
  decide

/-- C20: for every 32-bit unsigned `z > 0` the loop of `find_msb` exits with
`msb` assigned (it starts unassigned, so the assignment `msb = curr_bit` was
executed), and `find_msb` returns that assigned value: the value returned is
never the uninitialised local. -/
theorem find_msb_assigns_msb (z : Nat) (hpos : 0 < z) (hz : z < UINT_MOD) :
    ∃ curr_bit msb, find_msb_loop z (UINT_WIDTH + 1) 1 none = .ok (curr_bit, some msb) ∧
      find_msb z = .ok msb ∧ find_msb z ≠ .error Fault.uninitialised := by
  have hne : z ≠ 0 := by omega
  refine ⟨_, _, find_msb_exit_state hne hz, find_msb_eq hne hz, ?_⟩
  rw [find_msb_eq hne hz]
  intro h
  cases h

theorem find_msb_assigns_msb_witness :
    0 < 6 ∧ 6 < UINT_MOD ∧
      ∃ curr_bit msb, find_msb_loop 6 (UINT_WIDTH + 1) 1 none = .ok (curr_bit, some msb) ∧
        find_msb 6 = .ok msb ∧ find_msb 6 ≠ .error Fault.uninitialised :=
  ⟨by decide, by decide, find_msb_assigns_msb 6 (by decide) (by decide)⟩

/-! ## The driver -/

theorem getD_mem {l : List Nat} {i : Nat} (hi : i < l.length) : l.getD i 0 ∈ l := by
  simp only [List.getD_eq_getElem?_getD, List.getElem?_eq_getElem hi, Option.getD_some]
  exact List.getElem_mem hi

theorem exists_index_of_mem {l : List Nat} {v : Nat} (hv : v ∈ l) :
    ∃ j, j < l.length ∧ l.getD j 0 = v := by
  obtain ⟨j, hj, hjv⟩ := List.getElem_of_mem hv
  refine ⟨j, hj, ?_⟩
  simp only [List.getD_eq_getElem?_getD, List.getElem?_eq_getElem hj, Option.getD_some]
  exact hjv

theorem main_decision_empty (piles : List Nat) (hn : piles.length = 0) :
    main_decision piles.length piles = .ok Report.game_over := by
  unfold main_decision
  rw [if_pos hn]

theorem main_decision_win (piles : List Nat) (m : Move)
    (hm : find_winning_move piles.length piles = .ok (some m)) :
    main_decision piles.length piles = .ok (Report.win m.move_count m.move_pile) := by
  have hn : piles.length ≠ 0 := by
    intro h0
    have hnil : piles = [] := List.length_eq_zero.1 h0
    subst hnil
    have h0 : find_winning_move ([] : List Nat).length [] = .ok none := by decide
    rw [h0] at hm
    cases hm
  unfold main_decision
  rw [if_neg hn, hm]

theorem main_decision_no_win (piles : List Nat) (hn : piles.length ≠ 0)
    (hx : nim_sum piles = 0) :
    ∃ r, find_max piles.length piles = .ok r ∧ r < piles.length ∧
      (∀ j, j < piles.length → piles.getD j 0 ≤ piles.getD r 0) ∧
      (∀ j, j < r → piles.getD j 0 < piles.getD r 0) ∧
      main_decision piles.length piles =
        .ok (if piles.getD r 0 > 0 then Report.lose r else Report.game_over) := by
  obtain ⟨r, hrun, hr, hmax, hfirst⟩ :=
    find_max_spec piles.length piles rfl (Nat.pos_of_ne_zero hn)
  refine ⟨r, hrun, hr, hmax, hfirst, ?_⟩
  unfold main_decision
  rw [if_neg hn, find_winning_move_zero piles hx]
  simp only [hrun]
  rw [read_ok hr]
  simp only
  split <;> rfl

theorem nim_sum_eq_zero_of_all_zero (piles : List Nat) (h : ∀ v ∈ piles, v = 0) :
    nim_sum piles = 0 := by
  by_contra hx
  obtain ⟨v, hv, hvk⟩ := exists_testBit_of_nim_sum piles _ (testBit_log2 hx)
  rw [h v hv] at hvk
  simp at hvk

/-- The three ways through the body of `main`. -/
theorem main_decision_cases (piles : List Nat) (hU : AllUInt piles) :
    (piles.length = 0 ∧ main_decision piles.length piles = .ok Report.game_over) ∨
    (piles.length ≠ 0 ∧ nim_sum piles ≠ 0 ∧
      ∃ m, find_winning_move piles.length piles = .ok (some m) ∧
        m.move_pile < piles.length ∧ 1 ≤ m.move_count ∧
        m.move_count ≤ piles.getD m.move_pile 0 ∧
        main_decision piles.length piles = .ok (Report.win m.move_count m.move_pile)) ∨
    (piles.length ≠ 0 ∧ nim_sum piles = 0 ∧
      ∃ r, r < piles.length ∧
        (∀ j, j < piles.length → piles.getD j 0 ≤ piles.getD r 0) ∧
        (∀ j, j < r → piles.getD j 0 < piles.getD r 0) ∧
        main_decision piles.length piles =
          .ok (if piles.getD r 0 > 0 then Report.lose r else Report.game_over)) := by
  by_cases hn : piles.length = 0
  · exact Or.inl ⟨hn, main_decision_empty piles hn⟩
  · by_cases hx : nim_sum piles = 0
    · obtain ⟨r, _, hr, hmax, hfirst, hrun⟩ := main_decision_no_win piles hn hx
      exact Or.inr (Or.inr ⟨hn, hx, r, hr, hmax, hfirst, hrun⟩)
    · obtain ⟨i, hi, _, _, hlt, hrun⟩ := find_winning_move_spec piles hU hx
      refine Or.inr (Or.inl ⟨hn, hx, _, hrun, hi, ?_, ?_, main_decision_win piles _ hrun⟩)
      · show 1 ≤ piles.getD i 0 - (nim_sum piles ^^^ piles.getD i 0); omega
      · show piles.getD i 0 - (nim_sum piles ^^^ piles.getD i 0) ≤ piles.getD i 0; omega

/-- C11: for every sequence of 32-bit pile sizes handed to the body of `main`
the reported outcome follows the decision table: GAME OVER if `n = 0`;
otherwise WIN with exactly the count and the pile returned by
`find_winning_move` if a winning move exists; otherwise LOSE, taking 1 stone
from the first pile of maximal size, if some pile is nonempty; otherwise
GAME OVER. -/
theorem main_decision_table (piles : List Nat) (hU : AllUInt piles) :
    ∃ out, main_decision piles.length piles = .ok out ∧
      (piles.length = 0 → out = Report.game_over) ∧
      (piles.length ≠ 0 → (∃ i c, winning_move piles i c) →
        ∃ m, find_winning_move piles.length piles = .ok (some m) ∧
          out = Report.win m.move_count m.move_pile) ∧
      (piles.length ≠ 0 → (¬ ∃ i c, winning_move piles i c) → (∃ v ∈ piles, 0 < v) →
        ∃ r, r < piles.length ∧
          (∀ j, j < piles.length → piles.getD j 0 ≤ piles.getD r 0) ∧
          (∀ j, j < r → piles.getD j 0 < piles.getD r 0) ∧
          out = Report.lose r) ∧
      (piles.length ≠ 0 → (¬ ∃ i c, winning_move piles i c) → (∀ v ∈ piles, v = 0) →
        out = Report.game_over) := by
  rcases main_decision_cases piles hU with ⟨hn, hrun⟩ | ⟨hn, hx, m, hm, _, _, _, hrun⟩ |
    ⟨hn, hx, r, hr, hmax, hfirst, hrun⟩
  · exact ⟨_, hrun, fun _ => rfl, fun h => absurd hn h, fun h => absurd hn h,
      fun h => absurd hn h⟩
  · have hw := exists_winning_move piles hx
    exact ⟨_, hrun, fun h => absurd h hn, fun _ _ => ⟨m, hm, rfl⟩,
      fun _ hno => absurd hw hno, fun _ hno => absurd hw hno⟩
  · refine ⟨_, hrun, fun h => absurd h hn, ?_, ?_, ?_⟩
    · rintro _ ⟨i, c, hi, hc1, hc2, hz⟩
      exact absurd hz (nim_sum_ne_zero_of_move piles i c hx hi hc1 hc2)
    · rintro _ _ ⟨v, hv, hvpos⟩
      obtain ⟨j, hj, hjv⟩ := exists_index_of_mem hv
      have hle := hmax j hj
      have hpos : piles.getD r 0 > 0 := by omega
      exact ⟨r, hr, hmax, hfirst, by rw [if_pos hpos]⟩
    · intro _ _ hall
      have h0 : piles.getD r 0 = 0 := hall _ (getD_mem hr)
      rw [if_neg (by omega)]

theorem main_decision_table_witness :
    AllUInt [1, 3, 3, 1] ∧
      ∃ out, main_decision [1, 3, 3, 1].length [1, 3, 3, 1] = .ok out ∧
        ([1, 3, 3, 1].length = 0 → out = Report.game_over) ∧
        ([1, 3, 3, 1].length ≠ 0 → (∃ i c, winning_move [1, 3, 3, 1] i c) →
          ∃ m, find_winning_move [1, 3, 3, 1].length [1, 3, 3, 1] = .ok (some m) ∧
            out = Report.win m.move_count m.move_pile) ∧
        ([1, 3, 3, 1].length ≠ 0 → (¬ ∃ i c, winning_move [1, 3, 3, 1] i c) →
          (∃ v ∈ [1, 3, 3, 1], 0 < v) →
          ∃ r, r < [1, 3, 3, 1].length ∧
            (∀ j, j < [1, 3, 3, 1].length → [1, 3, 3, 1].getD j 0 ≤ [1, 3, 3, 1].getD r 0) ∧
            (∀ j, j < r → [1, 3, 3, 1].getD j 0 < [1, 3, 3, 1].getD r 0) ∧
            out = Report.lose r) ∧
        ([1, 3, 3, 1].length ≠ 0 → (¬ ∃ i c, winning_move [1, 3, 3, 1] i c) →
          (∀ v ∈ [1, 3, 3, 1], v = 0) → out = Report.game_over) :=
  ⟨by decide, main_decision_table [1, 3, 3, 1] (by decide)⟩

/-- C12: for every sequence of 32-bit pile sizes handed to the body of `main`
the outcome is GAME OVER if and only if every pile is empty (which includes
`n = 0`); whenever at least one pile is nonempty the outcome is a move, WIN or
LOSE, that removes at least one stone from a pile holding at least that many. -/
theorem main_decision_game_over_iff (piles : List Nat) (hU : AllUInt piles) :
    ∃ out, main_decision piles.length piles = .ok out ∧
      (out = Report.game_over ↔ ∀ v ∈ piles, v = 0) ∧
      ((∃ v ∈ piles, 0 < v) →
        (∃ c i, out = Report.win c i ∧ i < piles.length ∧ 1 ≤ c ∧ c ≤ piles.getD i 0) ∨
        (∃ i, out = Report.lose i ∧ i < piles.length ∧ 1 ≤ piles.getD i 0)) := by
  rcases main_decision_cases piles hU with ⟨hn, hrun⟩ | ⟨hn, hx, m, hm, hi, hc1, hc2, hrun⟩ |
    ⟨hn, hx, r, hr, hmax, hfirst, hrun⟩
  · have hnil : piles = [] := List.length_eq_zero.1 hn
    refine ⟨_, hrun, ?_, ?_⟩
    · rw [hnil]; simp
    · rw [hnil]; simp
  · refine ⟨_, hrun, ?_, fun _ => Or.inl ⟨_, _, rfl, hi, hc1, hc2⟩⟩
    constructor
    · intro h; cases h
    · intro hall
      exact absurd (nim_sum_eq_zero_of_all_zero piles hall) hx
  · by_cases hpos : piles.getD r 0 > 0
    · rw [if_pos hpos] at hrun
      refine ⟨_, hrun, ?_, fun _ => Or.inr ⟨r, rfl, hr, hpos⟩⟩
      constructor
      · intro h; cases h
      · intro hall
        have := hall _ (getD_mem hr)
        omega
    · rw [if_neg hpos] at hrun
      refine ⟨_, hrun, ?_, ?_⟩
      · constructor
        · intro _ v hv
          obtain ⟨j, hj, hjv⟩ := exists_index_of_mem hv
          have := hmax j hj
          omega
        · intro _; rfl
      · rintro ⟨v, hv, hvpos⟩
        obtain ⟨j, hj, hjv⟩ := exists_index_of_mem hv
        have := hmax j hj
        omega

theorem main_decision_game_over_iff_witness :
    AllUInt [0, 0, 0] ∧
      ∃ out, main_decision [0, 0, 0].length [0, 0, 0] = .ok out ∧
        (out = Report.game_over ↔ ∀ v ∈ [0, 0, 0], v = 0) ∧
        ((∃ v ∈ [0, 0, 0], 0 < v) →
          (∃ c i, out = Report.win c i ∧ i < [0, 0, 0].length ∧ 1 ≤ c ∧
            c ≤ [0, 0, 0].getD i 0) ∨
          (∃ i, out = Report.lose i ∧ i < [0, 0, 0].length ∧ 1 ≤ [0, 0, 0].getD i 0)) :=
  ⟨by decide, main_decision_game_over_iff [0, 0, 0] (by decide)⟩

/-! ## The memory -/

theorem scan_loop_mem_eq (msb : Nat) :
    ∀ (l : List Nat) (mem : Mem),
      scan_loop_mem msb l mem =
        match scan_loop msb l mem.move_pile with
        | .error e => .error e
        | .ok i => .ok { mem with move_pile := i } := by
  intro l
  induction l with
  | nil => intro mem; rfl
  | cons v l ih =>
    intro mem
    rw [scan_loop_mem, scan_loop]
    cases hv : is_bit_set v msb
    · simp only [Bool.false_eq_true, ↓reduceIte]
      rw [ih]
    · simp only [↓reduceIte]

/-- The function with the stores returns what `find_winning_move` returns, and
leaves the outputs in the two cells. -/
theorem find_winning_move_mem_eq (num_piles : Nat) (mem : Mem) :
    find_winning_move_mem num_piles mem =
      match find_winning_move num_piles mem.pile_size with
      | .error e => .error e
      | .ok none => .ok (false, mem)
      | .ok (some m) =>
        .ok (true, { mem with move_pile := m.move_pile, move_count := m.move_count }) := by
  unfold find_winning_move_mem find_winning_move
  cases (List.range num_piles).foldlM (xor_step mem.pile_size) 0 with
  | error e => rfl
  | ok xor =>
    simp only
    by_cases hx : xor = 0
    · simp only [if_pos hx]
    · simp only [if_neg hx]
      cases find_msb xor with
      | error e => rfl
      | ok msb =>
        simp only
        rw [scan_loop_mem_eq]
        cases scan_loop msb mem.pile_size 0 with
        | error e => rfl
        | ok i =>
          simp only
          cases read mem.pile_size i with
          | error e => rfl
          | ok v => rfl

/-- C13: the decision procedure never mutates the game state: for every
memory (pile array and output cells) and every `num_piles` and `size`, when
`find_winning_move` returns, whatever its result, and when `find_max` returns,
the pile array is what it was before the call. -/
theorem decision_procedure_frame (num_piles size : Nat) (mem : Mem) :
    (∀ b mem1, find_winning_move_mem num_piles mem = .ok (b, mem1) →
        mem1.pile_size = mem.pile_size) ∧
      (∀ r mem1, find_max_mem size mem = .ok (r, mem1) → mem1.pile_size = mem.pile_size) := by
  constructor
  · intro b mem1 h
    rw [find_winning_move_mem_eq] at h
    cases hf : find_winning_move num_piles mem.pile_size with
    | error e => rw [hf] at h; cases h
    | ok o =>
      rw [hf] at h
      cases o with
      | none => cases h; rfl
      | some m => cases h; rfl
  · intro r mem1 h
    unfold find_max_mem at h
    cases hf : find_max size mem.pile_size with
    | error e => rw [hf] at h; cases h
    | ok index_max => rw [hf] at h; cases h; rfl

theorem decision_procedure_frame_witness :
    find_winning_move_mem 3 ⟨[3, 4, 5], 7, 9⟩ = .ok (true, ⟨[3, 4, 5], 0, 2⟩) ∧
      find_max_mem 3 ⟨[3, 4, 5], 7, 9⟩ = .ok (2, ⟨[3, 4, 5], 7, 9⟩) ∧
      (⟨[3, 4, 5], 0, 2⟩ : Mem).pile_size = (⟨[3, 4, 5], 7, 9⟩ : Mem).pile_size ∧
      (⟨[3, 4, 5], 7, 9⟩ : Mem).pile_size = (⟨[3, 4, 5], 7, 9⟩ : Mem).pile_size :=
  ⟨by decide, by decide,
    (decision_procedure_frame 3 3 ⟨[3, 4, 5], 7, 9⟩).1 true ⟨[3, 4, 5], 0, 2⟩ (by decide),
    (decision_procedure_frame 3 3 ⟨[3, 4, 5], 7, 9⟩).2 2 ⟨[3, 4, 5], 7, 9⟩ (by decide)⟩

/-! ## The input -/

theorem read_loop_spec (n : Nat) :
    ∀ (input : List Nat) (i : Nat) (arr : List (Option Nat)), i ≤ n → arr.length = n →
      (read_loop n input i arr).1 = min (i + input.length) n ∧
      (read_loop n input i arr).2.length = n ∧
      ∀ j, (read_loop n input i arr).2[j]? =
        if i ≤ j ∧ j < min (i + input.length) n then some (input[j - i]?) else arr[j]? := by
  intro input
  induction input with
  | nil =>
    intro i arr hi hlen
    refine ⟨by simp only [read_loop, List.length_nil]; omega, hlen, ?_⟩
    intro j
    simp only [read_loop, List.length_nil]
    rw [if_neg (by omega)]
  | cons v rest ih =>
    intro i arr hi hlen
    by_cases hin : i < n
    · have hstep : read_loop n (v :: rest) i arr =
          read_loop n rest (i + 1) (arr.set i (some v)) := by
        rw [read_loop, if_pos hin]
      obtain ⟨h1, h2, h3⟩ := ih (i + 1) (arr.set i (some v)) hin (by simp [hlen])
      rw [hstep]
      refine ⟨by rw [h1, List.length_cons]; omega, h2, ?_⟩
      intro j
      rw [h3 j, List.length_cons]
      by_cases hji : j = i
      · subst hji
        rw [if_neg (by omega), if_pos (by omega), List.getElem?_set_self (by omega)]
        simp
      · rw [List.getElem?_set_ne (fun h => hji h.symm)]
        by_cases hc : i + 1 ≤ j ∧ j < min (i + 1 + rest.length) n
        · rw [if_pos hc, if_pos (by omega)]
          have : j - i = (j - (i + 1)) + 1 := by omega
          rw [this, List.getElem?_cons_succ]
        · rw [if_neg hc, if_neg (by omega)]
    · have hstep : read_loop n (v :: rest) i arr = (i, arr) := by
        rw [read_loop, if_neg hin]
      rw [hstep]
      refine ⟨by simp only [List.length_cons]; omega, hlen, ?_⟩
      intro j
      rw [if_neg (by omega)]

theorem fill_loop_spec :
    ∀ (cnt i : Nat) (arr : List (Option Nat)),
      ((List.range' i cnt).foldl (fun a j => a.set j (some 0)) arr).length = arr.length ∧
      ∀ j, ((List.range' i cnt).foldl (fun a j => a.set j (some 0)) arr)[j]? =
        if i ≤ j ∧ j < i + cnt ∧ j < arr.length then some (some 0) else arr[j]? := by
  intro cnt
  induction cnt with
  | zero =>
    intro i arr
    refine ⟨rfl, ?_⟩
    intro j
    rw [if_neg (by omega)]
    rfl
  | succ cnt ih =>
    intro i arr
    obtain ⟨h1, h2⟩ := ih (i + 1) (arr.set i (some 0))
    rw [List.range'_succ, List.foldl_cons]
    refine ⟨by rw [h1]; simp, ?_⟩
    intro j
    rw [h2 j, List.length_set]
    by_cases hji : j = i
    · subst hji
      rw [if_neg (by omega)]
      by_cases hlt : j < arr.length
      · rw [if_pos (by omega), List.getElem?_set_self hlt]
      · rw [if_neg (by omega), List.getElem?_set_self']
        simp [List.getElem?_eq_none (Nat.le_of_not_lt hlt)]
    · rw [List.getElem?_set_ne (fun h => hji h.symm)]
      by_cases hc : i + 1 ≤ j ∧ j < i + 1 + cnt ∧ j < arr.length
      · rw [if_pos hc, if_pos (by omega)]
      · rw [if_neg hc, if_neg (by omega)]

/-- C14: for every declared pile count `n` and every input from which `k`
unsigned integers are read before the first read that fails, the array of
`read_game` holds exactly `n` values at its `return` statement: the first
`min k n` are the values read, in order, and every remaining position up to `n`
is 0. -/
theorem read_game_piles (n : Nat) (input : List Nat) :
    (read_game n input).num_piles = n ∧
      (read_game n input).pile_size.length = n ∧
      (∀ j, j < min input.length n → (read_game n input).pile_size[j]? = some (input[j]?)) ∧
      (∀ j, min input.length n ≤ j → j < n →
        (read_game n input).pile_size[j]? = some (some 0)) ∧
      (read_game n input).pile_size =
        (input.take n ++ List.replicate (n - input.length) 0).map some := by
  obtain ⟨h1, h2, h3⟩ := read_loop_spec n input 0 (List.replicate n none) (Nat.zero_le n)
    (by simp)
  obtain ⟨f1, f2⟩ := fill_loop_spec (n - (read_loop n input 0 (List.replicate n none)).1)
    (read_loop n input 0 (List.replicate n none)).1
    (read_loop n input 0 (List.replicate n none)).2
  have hget : ∀ j, (read_game n input).pile_size[j]? =
      if j < min input.length n then some (input[j]?)
      else if j < n then some (some 0) else none := by
    intro j
    show (fill_loop n _ _)[j]? = _
    unfold fill_loop
    rw [f2 j, h3 j, h1, h2]
    simp only [Nat.zero_add, Nat.zero_le, true_and, Nat.sub_zero]
    by_cases hj : j < min input.length n
    · rw [if_neg (by omega), if_pos hj, if_pos hj]
    · rw [if_neg hj, if_neg hj]
      by_cases hjn : j < n
      · rw [if_pos (by omega), if_pos hjn]
      · rw [if_neg (by omega), if_neg hjn]
        simp [List.getElem?_replicate]
        omega
  have hlen : (read_game n input).pile_size.length = n := by
    show (fill_loop n _ _).length = n
    unfold fill_loop
    rw [f1, h2]
  refine ⟨rfl, hlen, ?_, ?_, ?_⟩
  · intro j hj
    rw [hget j, if_pos hj]
  · intro j hj hjn
    rw [hget j, if_neg (by omega), if_pos hjn]
  · apply List.ext_getElem?
    intro j
    rw [hget j, List.getElem?_map, List.getElem?_append, List.getElem?_take,
      List.getElem?_replicate]
    simp only [List.length_take]
    by_cases hj : j < min input.length n
    · rw [if_pos hj, if_pos (by omega), if_pos (by omega)]
      have : j < input.length := by omega
      simp [List.getElem?_eq_getElem this]
    · rw [if_neg hj]
      by_cases hjn : j < n
      · rw [if_pos hjn, if_neg (by omega), if_pos (by omega)]
        rfl
      · rw [if_neg hjn]
        by_cases hjl : j < min n input.length
        · omega
        · rw [if_neg hjl, if_neg (by omega)]
          rfl

theorem read_game_piles_witness :
    (read_game 4 [7, 8]).num_piles = 4 ∧
      (read_game 4 [7, 8]).pile_size.length = 4 ∧
      (read_game 4 [7, 8]).pile_size[1]? = some ([7, 8][1]?) ∧
      (read_game 4 [7, 8]).pile_size[3]? = some (some 0) ∧
      (read_game 4 [7, 8]).pile_size = [some 7, some 8, some 0, some 0] ∧
      (read_game 2 [7, 8, 9]).pile_size = (([7, 8, 9] : List Nat).take 2 ++
        List.replicate (2 - ([7, 8, 9] : List Nat).length) 0).map some :=
  ⟨(read_game_piles 4 [7, 8]).1, (read_game_piles 4 [7, 8]).2.1,
    (read_game_piles 4 [7, 8]).2.2.1 1 (by decide),
    (read_game_piles 4 [7, 8]).2.2.2.1 3 (by decide) (by decide), by decide,
    (read_game_piles 2 [7, 8, 9]).2.2.2.2⟩

/-- C15, the code at the input `2`, `1 1`: the array that `read_game` returns
is its own local array, of automatic storage duration, so once `read_game` has
returned nothing can be read through the pointer it returned. -/
theorem read_game_returns_local_array :
    (read_game 2 [1, 1]).storage = Storage.automatic ∧
      (read_game 2 [1, 1]).pile_size = [some 1, some 1] ∧
      after_return (read_game 2 [1, 1]) = none := by
  decide

end Nim
